import Mathlib

/-!
Verification of the l1l2py elastic-net core against its specification.

The repository code is shallowly embedded over exact rationals:
matrices are row lists (`Mat`), vectors are `List ℚ`, and the two
external numerical-library routines used by `classification.py`
(`scipy.linalg.norm(·, 2)`, the spectral norm, and `numpy.sqrt`) are
passed as explicit function parameters, since they are library code
outside the repository.  Fallible Python code is embedded with
`Option`/`Except`.
-/

set_option linter.unusedVariables false

namespace L1L2

/-- Row-major dense matrix of rationals (a numpy 2-d array). -/
abbrev Mat : Type := List (List ℚ)

/-- Dot product of two vectors (`numpy.dot` on 1-d arrays). -/
def dot (v w : List ℚ) : ℚ := (List.zipWith (· * ·) v w).sum

/-- Matrix–vector product (`numpy.dot(X, v)`). -/
def matVec (m : Mat) (v : List ℚ) : List ℚ := m.map (fun row => dot row v)

/-- Transposed-matrix–vector product (`numpy.dot(X.T, v)`). -/
def matTvec (m : Mat) (v : List ℚ) : List ℚ := m.transpose.map (fun col => dot col v)

/-- Matrix–matrix product (`numpy.dot(A, B)`). -/
def matMul (a b : Mat) : Mat := a.map (fun row => b.transpose.map (fun col => dot row col))

/-- Elementwise vector sum. -/
def vadd (v w : List ℚ) : List ℚ := List.zipWith (· + ·) v w

/-- Elementwise vector difference. -/
def vsub (v w : List ℚ) : List ℚ := List.zipWith (· - ·) v w

/-- Scalar multiple of a vector. -/
def smul (c : ℚ) (v : List ℚ) : List ℚ := v.map (fun x => c * x)

/-- The all-zero coefficient vector `numpy.zeros(p)`. -/
def zerosVec (p : ℕ) : List ℚ := List.replicate p 0

/-- Number of columns of a row-major matrix (`matrix.shape[1]`). -/
def numCols (m : Mat) : ℕ := (m.headD []).length

/-- `numpy.abs(v).max()` for the nonempty vectors arising in the solver
(the fold is seeded with `0`, which for a nonempty list of absolute
values agrees with the numpy maximum). -/
def maxAbs (v : List ℚ) : ℚ := v.foldl (fun m x => max m |x|) 0

/-- `numpy.sign`: `1` on positives, `-1` on negatives, `0` at zero. -/
def sign (q : ℚ) : ℚ := if 0 < q then 1 else if q < 0 then -1 else 0

/-- Machine epsilon `numpy.finfo(float).eps = 2⁻⁵²`, exact. -/
def machEps : ℚ := 1 / 2 ^ 52

/-- The soft-thresholding step of `fista_l1l2`
(`classification.py` lines 58–61):
`np.clip(np.abs(value) - tau_s, 0, np.inf, beta_next); beta_next *= np.sign(value)`,
elementwise `max (|x| - ts) 0 * sign x` at threshold parameter `ts`. -/
def soft_thresholding (v : List ℚ) (ts : ℚ) : List ℚ :=
  v.map (fun x => max (|x| - ts) 0 * sign x)

section SoftThresholding

/-- Scalar behaviour of one soft-thresholding entry. -/
theorem soft_entry (x t : ℚ) (ht : 0 ≤ t) :
    max (|x| - t / 2) 0 * sign x = sign x * max (|x| - t / 2) 0
    ∧ (max (|x| - t / 2) 0 * sign x = 0 ↔ |x| ≤ t / 2)
    ∧ (t / 2 < |x| → max (|x| - t / 2) 0 * sign x = x - sign x * (t / 2)) := by
  have ht2 : 0 ≤ t / 2 := by positivity
  refine ⟨mul_comm _ _, ?_, ?_⟩
  · constructor
    · intro h
      by_contra hgt
      push_neg at hgt
      have hx : x ≠ 0 := by
        intro hx0
        rw [hx0, abs_zero] at hgt
        exact absurd (lt_of_le_of_lt ht2 hgt) (lt_irrefl 0)
      have hmax : max (|x| - t / 2) 0 = |x| - t / 2 :=
        max_eq_left (by linarith)
      rw [hmax] at h
      rcases mul_eq_zero.mp h with h1 | h2
      · linarith
      · unfold sign at h2
        rcases lt_trichotomy x 0 with hlt | heq | hgt2
        · simp [not_lt.mpr (le_of_lt hlt), hlt] at h2
        · exact hx heq
        · simp [hgt2] at h2
    · intro h
      have hmax : max (|x| - t / 2) 0 = 0 := max_eq_right (by linarith)
      rw [hmax, zero_mul]
  · intro hgt
    have hx : x ≠ 0 := by
      intro hx0
      rw [hx0, abs_zero] at hgt
      linarith
    have hmax : max (|x| - t / 2) 0 = |x| - t / 2 :=
      max_eq_left (by linarith)
    rw [hmax]
    rcases lt_trichotomy x 0 with hlt | heq | hgt2
    · have hs : sign x = -1 := by unfold sign; simp [not_lt.mpr (le_of_lt hlt), hlt]
      have ha : |x| = -x := abs_of_neg hlt
      rw [hs, ha]; ring
    · exact absurd heq hx
    · have hs : sign x = 1 := by unfold sign; simp [hgt2]
      have ha : |x| = x := abs_of_pos hgt2
      rw [hs, ha]; ring

/-- C1: for every coefficient vector `v` and threshold `t ≥ 0`, the
soft-thresholding step of the solver returns `w` with
`w i = sign (v i) * max (|v i| - t/2) 0`; in particular `w i = 0`
exactly when `|v i| ≤ t/2`, and otherwise `w i = v i - sign (v i) * t/2`.
(The solver applies `soft_thresholding` at parameter `tau_s = tau/(2*sigma)`,
i.e. at `t/2` for rescaled threshold `t = tau/sigma`.) -/
theorem soft_thresholding_spec (v : List ℚ) (t : ℚ) (ht : 0 ≤ t)
    (i : ℕ) (hi : i < v.length) :
    (soft_thresholding v (t / 2)).getD i 0
        = sign (v.getD i 0) * max (|v.getD i 0| - t / 2) 0
    ∧ ((soft_thresholding v (t / 2)).getD i 0 = 0 ↔ |v.getD i 0| ≤ t / 2)
    ∧ (t / 2 < |v.getD i 0| →
        (soft_thresholding v (t / 2)).getD i 0
          = v.getD i 0 - sign (v.getD i 0) * (t / 2)) := by
  have hmap : (soft_thresholding v (t / 2)).getD i 0
      = max (|v.getD i 0| - t / 2) 0 * sign (v.getD i 0) := by
    unfold soft_thresholding
    rw [List.getD_eq_getElem _ _ (by simpa using hi), List.getElem_map,
        List.getD_eq_getElem _ _ hi]
  obtain ⟨h1, h2, h3⟩ := soft_entry (v.getD i 0) t ht
  exact ⟨by rw [hmap, h1], by rw [hmap]; exact h2, fun h => by rw [hmap]; exact h3 h⟩

/-- Witness: the soft-thresholding contract evaluated at `v = [3, -1, 0]`,
`t = 2`, `i = 0`. -/
theorem soft_thresholding_spec_witness :
    (soft_thresholding [3, -1, 0] ((2 : ℚ) / 2)).getD 0 0
        = sign (([3, -1, 0] : List ℚ).getD 0 0)
            * max (|([3, -1, 0] : List ℚ).getD 0 0| - 2 / 2) 0
    ∧ ((soft_thresholding [3, -1, 0] ((2 : ℚ) / 2)).getD 0 0 = 0
        ↔ |([3, -1, 0] : List ℚ).getD 0 0| ≤ 2 / 2)
    ∧ ((2 : ℚ) / 2 < |([3, -1, 0] : List ℚ).getD 0 0| →
        (soft_thresholding [3, -1, 0] ((2 : ℚ) / 2)).getD 0 0
          = ([3, -1, 0] : List ℚ).getD 0 0
              - sign (([3, -1, 0] : List ℚ).getD 0 0) * (2 / 2)) :=
  soft_thresholding_spec [3, -1, 0] 2 (by norm_num) 0 (by norm_num)

end SoftThresholding

/-! ## The FISTA solver `fista_l1l2` (`classification.py` lines 24–102)

`sq` stands for the external library routine `numpy.sqrt` and `norm2`
for `scipy.linalg.norm(·, 2)` (the spectral norm); both are external
numerical-library calls, passed as parameters of the embedding. -/

/-- Step-size scalar `_sigma` (`classification.py` lines 105–113):
spectral norm of `XᵀX` (or `XXᵀ` when `p > n`) over the sample count,
plus `mu`. -/
def _sigma (norm2 : Mat → ℚ) (matrix : Mat) (mu : ℚ) : ℚ :=
  let n := matrix.length
  let p := numCols matrix
  let tmp := if p > n then matMul matrix matrix.transpose
             else matMul matrix.transpose matrix
  norm2 tmp / n + mu

/-- Loop-carried state of the FISTA iteration: current iterate `beta`,
momentum-extrapolated point `aux` (`aux_beta`), momentum scalar `t`, and
the rescaled penalties `muS`, `tauS` and denominator `nsig`
(`mu_s`, `tau_s`, `n_samples * sigma`), which the adaptive branch mutates. -/
structure FS where
  beta : List ℚ
  aux : List ℚ
  t : ℚ
  muS : ℚ
  tauS : ℚ
  nsig : ℚ
  deriving Repr, DecidableEq

/-- One iteration body of `fista_l1l2` (lines 51–96): gradient of the
smooth part at the extrapolated point, soft-thresholding, optional
adaptive step-size recomputation, FISTA momentum update. -/
def fistaNext (sq : ℚ → ℚ) (X : Mat) (y : List ℚ) (adaptive : Bool)
    (mu tau : ℚ) (s : FS) : FS :=
  let nSamples := y.length
  let nFeatures := s.beta.length
  let precalc := if nSamples > nFeatures then
      vsub (matTvec X y) (matTvec X (matVec X s.aux))
    else matTvec X (vsub y (matVec X s.aux))
  let value := vadd (precalc.map (fun x => x / s.nsig)) (smul (1 - s.muS) s.aux)
  let betaNext := soft_thresholding value s.tauS
  let upd :=
    if adaptive then
      let bd := vsub s.aux betaNext
      if bd.any (fun x => x ≠ 0) then
        let tmp := matVec X bd
        let num := dot tmp tmp / nSamples
        let sigma := num / dot bd bd
        let muA := mu / sigma
        let tauA := tau / (2 * sigma)
        let nsigA := (nSamples : ℚ) * sigma
        let valueA := vadd (precalc.map (fun x => x / nsigA)) (smul (1 - muA) s.aux)
        (soft_thresholding valueA tauA, muA, tauA, nsigA)
      else (betaNext, s.muS, s.tauS, s.nsig)
    else (betaNext, s.muS, s.tauS, s.nsig)
  let bNew := upd.1
  let betaDiff := vsub bNew s.beta
  let tNext := (1 + sq (1 + 4 * s.t * s.t)) / 2
  let auxNew := vadd bNew (smul ((s.t - 1) / tNext) betaDiff)
  ⟨bNew, auxNew, tNext, upd.2.1, upd.2.2.1, upd.2.2.2⟩

/-- Stopping rule of the iteration (line 99):
`max_coef == 0.0 or (max_diff / max_coef) <= tol`, with Python's
short-circuit `or` so the quotient is only formed when `max_coef ≠ 0`. -/
def fistaStopFlag (sq : ℚ → ℚ) (X : Mat) (y : List ℚ) (adaptive : Bool)
    (mu tau tol : ℚ) (s : FS) : Bool :=
  let nxt := fistaNext sq X y adaptive mu tau s
  let maxDiff := maxAbs (vsub nxt.beta s.beta)
  let maxCoef := maxAbs nxt.beta
  if maxCoef = 0 then true else decide (maxDiff / maxCoef ≤ tol)

/-- The `for n_iter in xrange(max_iter)` loop of `fista_l1l2`
(lines 50–100): runs at most `fuel` iterations, breaking after the first
iteration whose stopping rule fires; returns the final state together
with the number of iterations executed (the Python `n_iter + 1`). -/
def fistaLoop (sq : ℚ → ℚ) (X : Mat) (y : List ℚ) (adaptive : Bool)
    (mu tau tol : ℚ) : FS → ℕ → FS × ℕ
  | s, 0 => (s, 0)
  | s, fuel + 1 =>
    let nxt := fistaNext sq X y adaptive mu tau s
    if fistaStopFlag sq X y adaptive mu tau tol s then (nxt, 1)
    else
      let r := fistaLoop sq X y adaptive mu tau tol nxt fuel
      (r.1, r.2 + 1)

/-- State after `k` iterations of the FISTA loop (no stopping). -/
def fsIter (sq : ℚ → ℚ) (X : Mat) (y : List ℚ) (adaptive : Bool)
    (mu tau : ℚ) (s : FS) : ℕ → FS
  | 0 => s
  | k + 1 => fistaNext sq X y adaptive mu tau (fsIter sq X y adaptive mu tau s k)

/-- Starting conditions of `fista_l1l2` (lines 41–48): warm-start iterate,
`aux_beta = beta.copy()`, `t = 1`, and the rescalings
`mu_s = mu/sigma`, `tau_s = tau/(2 sigma)`, `nsigma = n_samples * sigma`. -/
def fistaInit (beta : List ℚ) (tau mu sigma : ℚ) (nSamples : ℕ) : FS :=
  ⟨beta, beta, 1, mu / sigma, tau / (2 * sigma), (nSamples : ℚ) * sigma⟩

/-- Dynamic result of `fista_l1l2`: the degenerate branch returns the
2-tuple `(beta, 0)` (line 39), the normal exit returns the 4-tuple
`(beta, None, tol, n_iter + 1)` (line 102). -/
inductive FistaResult where
  | twoTuple (beta : List ℚ) (zero : ℚ)
  | fourTuple (beta : List ℚ) (dualGap : Option ℚ) (tolOut : ℚ) (nIter : ℕ)
  deriving Repr, DecidableEq

/-- `fista_l1l2` (`classification.py` lines 24–102).  Returns `none` for
the crash case `max_iter = 0` with nondegenerate `sigma`, where the
Python `return` statement reads the never-bound loop variable `n_iter`
and raises `NameError`. -/
def fista_l1l2 (sq : ℚ → ℚ) (norm2 : Mat → ℚ) (beta : List ℚ)
    (tau mu : ℚ) (X : Mat) (y : List ℚ) (maxIter : ℕ) (tol : ℚ)
    (adaptive : Bool) : Option FistaResult :=
  let sigma := _sigma norm2 X mu
  if sigma < machEps then some (.twoTuple beta 0)
  else if maxIter = 0 then none
  else
    let s0 := fistaInit beta tau mu sigma y.length
    let r := fistaLoop sq X y adaptive mu tau tol s0 maxIter
    some (.fourTuple r.1.beta none tol r.2)

/-- Spectral norm of the 1×1 matrices used in concrete witnesses: for a
1×1 matrix `[[a]]` with `a ≥ 0` the spectral norm is exactly `a`. -/
def specNorm1 (m : Mat) : ℚ := (m.headD []).headD 0

/-- Placeholder for `numpy.sqrt` in concrete witness runs; every
witness run stops before the momentum scalar produced through `sq` can
influence a returned value (the first iteration multiplies it by
`t - 1 = 0`, and runs ending at a later iteration do so with a zero
`beta_diff`). -/
def sqZero (q : ℚ) : ℚ := 0

section Degenerate

/-- C3: whenever the computed step-size scalar `sigma` is numerically
zero (below machine epsilon), `fista_l1l2` terminates immediately,
returning the 2-tuple `(beta, 0)` with the input coefficient vector
unchanged and raising no error. -/
theorem fista_degenerate_noop (sq : ℚ → ℚ) (norm2 : Mat → ℚ)
    (beta : List ℚ) (tau mu : ℚ) (X : Mat) (y : List ℚ) (maxIter : ℕ)
    (tol : ℚ) (adaptive : Bool)
    (h : _sigma norm2 X mu < machEps) :
    fista_l1l2 sq norm2 beta tau mu X y maxIter tol adaptive
      = some (.twoTuple beta 0) := by
  unfold fista_l1l2
  simp [h]

/-- Witness: on the zero 1×1 design matrix with `mu = 0`, `sigma = 0`
and the solver returns the warm start `[7]` unchanged. -/
theorem fista_degenerate_noop_witness :
    _sigma specNorm1 [[0]] 0 < machEps
    ∧ fista_l1l2 sqZero specNorm1 [7] 1 0 [[0]] [1] 5 (1 / 100000) false
        = some (.twoTuple [7] 0) :=
  ⟨by with_unfolding_all decide, fista_degenerate_noop sqZero specNorm1 [7] 1 0 [[0]] [1] 5
      (1 / 100000) false (by with_unfolding_all decide)⟩

end Degenerate

section LoopBounds

variable (sq : ℚ → ℚ) (X : Mat) (y : List ℚ) (adaptive : Bool) (mu tau tol : ℚ)

theorem fsIter_succ_left (s : FS) :
    ∀ k, fsIter sq X y adaptive mu tau (fistaNext sq X y adaptive mu tau s) k
      = fsIter sq X y adaptive mu tau s (k + 1)
  | 0 => rfl
  | k + 1 => by
    unfold fsIter
    rw [fsIter_succ_left s k]

theorem maxAbs_fold_init_le : ∀ (l : List ℚ) (a : ℚ),
    a ≤ l.foldl (fun m x => max m |x|) a
  | [], a => le_refl a
  | x :: xs, a =>
    le_trans (le_max_left a |x|) (maxAbs_fold_init_le xs (max a |x|))

theorem abs_le_maxAbs_fold : ∀ (l : List ℚ) (a x : ℚ), x ∈ l →
    |x| ≤ l.foldl (fun m x => max m |x|) a
  | y :: ys, a, x, hx => by
    rcases List.mem_cons.mp hx with h | h
    · subst h
      exact le_trans (le_max_right a |x|) (maxAbs_fold_init_le ys (max a |x|))
    · exact abs_le_maxAbs_fold ys (max a |y|) x h

theorem maxAbs_eq_zero_iff (v : List ℚ) : maxAbs v = 0 ↔ ∀ x ∈ v, x = 0 := by
  constructor
  · intro h x hx
    have hle := abs_le_maxAbs_fold v 0 x hx
    rw [maxAbs] at h
    rw [h] at hle
    exact abs_eq_zero.mp (le_antisymm hle (abs_nonneg x))
  · intro h
    induction v with
    | nil => rfl
    | cons x xs ih =>
      have hx : x = 0 := h x (List.mem_cons_self x xs)
      have hxs := ih (fun z hz => h z (List.mem_cons_of_mem x hz))
      unfold maxAbs at hxs ⊢
      subst hx
      simpa using hxs

/-- The stopping rule holds exactly when the new iterate is entirely zero
(in which case the quotient is never formed, by short-circuiting) or the
iterate is nonzero and the relative change is at most `tol`. -/
theorem fistaStopFlag_iff (s : FS) :
    fistaStopFlag sq X y adaptive mu tau tol s = true ↔
      (maxAbs (fistaNext sq X y adaptive mu tau s).beta = 0
       ∨ (maxAbs (fistaNext sq X y adaptive mu tau s).beta ≠ 0
          ∧ maxAbs (vsub (fistaNext sq X y adaptive mu tau s).beta s.beta)
              / maxAbs (fistaNext sq X y adaptive mu tau s).beta ≤ tol)) := by
  unfold fistaStopFlag
  by_cases h : maxAbs (fistaNext sq X y adaptive mu tau s).beta = 0
  · simp [h]
  · simp [h]

theorem fistaLoop_succ (s : FS) (fuel : ℕ) :
    fistaLoop sq X y adaptive mu tau tol s (fuel + 1)
      = if fistaStopFlag sq X y adaptive mu tau tol s
        then (fistaNext sq X y adaptive mu tau s, 1)
        else ((fistaLoop sq X y adaptive mu tau tol
                (fistaNext sq X y adaptive mu tau s) fuel).1,
              (fistaLoop sq X y adaptive mu tau tol
                (fistaNext sq X y adaptive mu tau s) fuel).2 + 1) := rfl

/-- Full characterisation of the bounded FISTA loop: the iteration count
is at most the fuel, the final state is the corresponding iterate, at
least one iteration runs when fuel is positive, no iteration before the
exit satisfied the stopping rule, and an early exit satisfies it. -/
theorem fistaLoop_spec : ∀ (fuel : ℕ) (s : FS),
    (fistaLoop sq X y adaptive mu tau tol s fuel).2 ≤ fuel
    ∧ (fistaLoop sq X y adaptive mu tau tol s fuel).1
        = fsIter sq X y adaptive mu tau s (fistaLoop sq X y adaptive mu tau tol s fuel).2
    ∧ (1 ≤ fuel → 1 ≤ (fistaLoop sq X y adaptive mu tau tol s fuel).2)
    ∧ (∀ k, k + 1 < (fistaLoop sq X y adaptive mu tau tol s fuel).2 →
        fistaStopFlag sq X y adaptive mu tau tol (fsIter sq X y adaptive mu tau s k) = false)
    ∧ ((fistaLoop sq X y adaptive mu tau tol s fuel).2 < fuel →
        fistaStopFlag sq X y adaptive mu tau tol
          (fsIter sq X y adaptive mu tau s
            ((fistaLoop sq X y adaptive mu tau tol s fuel).2 - 1)) = true)
  | 0, s => by
    have h0 : fistaLoop sq X y adaptive mu tau tol s 0 = (s, 0) := rfl
    rw [h0]
    exact ⟨le_refl 0, rfl, fun h => h, fun k hk => absurd hk (by omega),
      fun h => absurd h (lt_irrefl 0)⟩
  | fuel + 1, s => by
    by_cases hstop : fistaStopFlag sq X y adaptive mu tau tol s = true
    · have hL : fistaLoop sq X y adaptive mu tau tol s (fuel + 1)
          = (fistaNext sq X y adaptive mu tau s, 1) := by
        rw [fistaLoop_succ, if_pos hstop]
      refine ⟨by rw [hL]; omega, by rw [hL]; rfl, fun _ => by rw [hL],
        fun k hk => by rw [hL] at hk; omega, fun _ => by rw [hL]; exact hstop⟩
    · have hstop' : fistaStopFlag sq X y adaptive mu tau tol s = false :=
        Bool.eq_false_iff.mpr hstop
      obtain ⟨ih1, ih2, ih3, ih4, ih5⟩ :=
        fistaLoop_spec fuel (fistaNext sq X y adaptive mu tau s)
      have hL : fistaLoop sq X y adaptive mu tau tol s (fuel + 1)
          = ((fistaLoop sq X y adaptive mu tau tol
                (fistaNext sq X y adaptive mu tau s) fuel).1,
             (fistaLoop sq X y adaptive mu tau tol
                (fistaNext sq X y adaptive mu tau s) fuel).2 + 1) := by
        rw [fistaLoop_succ, if_neg (by simp [hstop'])]
      rw [hL]
      refine ⟨by omega, ?_, fun _ => by omega, ?_, ?_⟩
      · rw [ih2, fsIter_succ_left]
      · intro k hk
        match k with
        | 0 => exact hstop'
        | j + 1 =>
          rw [← fsIter_succ_left]
          exact ih4 j (by omega)
      · intro hlt
        have hr : (fistaLoop sq X y adaptive mu tau tol
            (fistaNext sq X y adaptive mu tau s) fuel).2 < fuel ∨
            (fistaLoop sq X y adaptive mu tau tol
            (fistaNext sq X y adaptive mu tau s) fuel).2 = fuel := by omega
        have h1 : 1 ≤ (fistaLoop sq X y adaptive mu tau tol
            (fistaNext sq X y adaptive mu tau s) fuel).2 := ih3 (by omega)
        have heq : (fistaLoop sq X y adaptive mu tau tol
            (fistaNext sq X y adaptive mu tau s) fuel).2 + 1 - 1
            = ((fistaLoop sq X y adaptive mu tau tol
                (fistaNext sq X y adaptive mu tau s) fuel).2 - 1) + 1 := by omega
        rw [heq, ← fsIter_succ_left]
        exact ih5 (by omega)

/-- C7: with `max_iter ≥ 1` the iteration loop of `fista_l1l2` (started
from the solver's initial state) executes between 1 and `max_iter`
iterations; it exits early exactly when the stopping rule first fires;
the rule holds precisely when the current iterate is entirely zero or
the relative change `max|Δcoef| / max|coef|` is at most `tol`, the
quotient being formed only under `max|coef| ≠ 0` (the all-zero iterate
is treated as converged first); and `max|coef| = 0` means exactly that
every coefficient is zero. -/
theorem fista_iteration_bound (sq : ℚ → ℚ) (norm2 : Mat → ℚ)
    (beta : List ℚ) (tau mu : ℚ) (X : Mat) (y : List ℚ) (maxIter : ℕ)
    (tol : ℚ) (adaptive : Bool) (hmax : 1 ≤ maxIter) :
    let s0 := fistaInit beta tau mu (_sigma norm2 X mu) y.length
    let n := (fistaLoop sq X y adaptive mu tau tol s0 maxIter).2
    (1 ≤ n ∧ n ≤ maxIter)
    ∧ (fistaLoop sq X y adaptive mu tau tol s0 maxIter).1
        = fsIter sq X y adaptive mu tau s0 n
    ∧ (∀ k, k + 1 < n →
        fistaStopFlag sq X y adaptive mu tau tol (fsIter sq X y adaptive mu tau s0 k) = false)
    ∧ (n < maxIter →
        fistaStopFlag sq X y adaptive mu tau tol (fsIter sq X y adaptive mu tau s0 (n - 1)) = true)
    ∧ (∀ s : FS, fistaStopFlag sq X y adaptive mu tau tol s = true ↔
        (maxAbs (fistaNext sq X y adaptive mu tau s).beta = 0
         ∨ (maxAbs (fistaNext sq X y adaptive mu tau s).beta ≠ 0
            ∧ maxAbs (vsub (fistaNext sq X y adaptive mu tau s).beta s.beta)
                / maxAbs (fistaNext sq X y adaptive mu tau s).beta ≤ tol)))
    ∧ (∀ v : List ℚ, maxAbs v = 0 ↔ ∀ x ∈ v, x = 0) := by
  intro s0 n
  obtain ⟨h1, h2, h3, h4, h5⟩ := fistaLoop_spec sq X y adaptive mu tau tol maxIter s0
  exact ⟨⟨h3 hmax, h1⟩, h2, h4, h5,
    fun s => fistaStopFlag_iff sq X y adaptive mu tau tol s,
    fun v => maxAbs_eq_zero_iff v⟩

/-- Witness: run of the loop characterisation on a concrete 1×1 problem
with `max_iter = 3`. -/
theorem fista_iteration_bound_witness :
    1 ≤ (fistaLoop sqZero [[1]] [1] false 0 2 (1 / 10)
          (fistaInit [0] 2 0 (_sigma specNorm1 [[1]] 0) 1) 3).2
    ∧ (fistaLoop sqZero [[1]] [1] false 0 2 (1 / 10)
          (fistaInit [0] 2 0 (_sigma specNorm1 [[1]] 0) 1) 3).2 ≤ 3 :=
  (fista_iteration_bound sqZero specNorm1 [0] 2 0 [[1]] [1] 3 (1 / 10) false
    (by norm_num)).1

end LoopBounds

/-! ## The path driver `l1l2_regularization`
(`classification.py` lines 117–245)

Embedded along its dense, single-output, `precompute=False`,
explicit-`alphas` branch (the other branches raise `NotImplementedError`
or `ValueError` outright).  `tol` and `max_iter` stand for the values
read back from `params` at lines 165–166. -/

/-- Insertion of one element into a descending-sorted list. -/
def insDesc (x : ℚ) : List ℚ → List ℚ
  | [] => [x]
  | y :: ys => if y < x then x :: y :: ys else y :: insDesc x ys

/-- `np.sort(alphas)[::-1]` (line 162): the grid sorted descending. -/
def sortDesc : List ℚ → List ℚ
  | [] => []
  | x :: xs => insDesc x (sortDesc xs)

/-- Successful output of the path driver: the processed grid, one
coefficient vector per processed penalty (`coefs[..., i]`), and the
recorded iteration counts. -/
structure PathOut where
  alphas : List ℚ
  coefs : List (List ℚ)
  nIters : List ℕ
  deriving Repr, DecidableEq

/-- The `for i, alpha in enumerate(alphas)` loop (lines 187–224): each
penalty is rescaled to `l1_reg = 2*alpha*l1_frac`,
`l2_reg = alpha*(1-l1_frac)`, the FISTA solver is called warm-started
from the previous coefficients, its result is unpacked four ways
(raising `ValueError` on the degenerate 2-tuple), the coefficients are
stored, and the `None` dual gap is assigned into the float `dual_gaps`
array — which raises `TypeError`, since a Python `None` cannot be
converted to a float. -/
def pathLoop (sq : ℚ → ℚ) (norm2 : Mat → ℚ) (X : Mat) (y : List ℚ)
    (l1Frac : ℚ) (maxIter : ℕ) (tol : ℚ) :
    List ℚ → List ℚ → List (List ℚ) → List ℕ →
      Except String (List (List ℚ) × List ℕ)
  | _, [], acc, accN => .ok (acc, accN)
  | coef, a :: rest, acc, accN =>
    match fista_l1l2 sq norm2 coef (a * l1Frac * 2) (a * (1 - l1Frac))
        X y maxIter tol false with
    | none => .error "NameError: name n_iter is not defined"
    | some (.twoTuple _ _) =>
      .error "ValueError: need more than 2 values to unpack"
    | some (.fourTuple c dualGap _ n) =>
      match dualGap with
      | none => .error "TypeError: float() argument must be a string or a number"
      | some _ => pathLoop sq norm2 X y l1Frac maxIter tol c rest
          (acc ++ [c]) (accN ++ [n])

/-- `l1l2_regularization` (lines 117–245) on the dense
`precompute=False` branch with an explicit penalty grid: sorts the grid
descending, starts from the all-zero coefficient vector, and runs the
penalty loop. -/
def l1l2_regularization (sq : ℚ → ℚ) (norm2 : Mat → ℚ) (X : Mat)
    (y : List ℚ) (l1Frac : ℚ) (alphas : List ℚ) (maxIter : ℕ)
    (tol : ℚ) : Except String PathOut :=
  let srt := sortDesc alphas
  (pathLoop sq norm2 X y l1Frac maxIter tol (zerosVec (numCols X))
      srt [] []).map (fun r => ⟨srt, r.1, r.2⟩)

section PathDriver

/-- C2 (code bug): on the grid `[4, 3, 2, 1]` over the 1×1 design
`X = [[1]]`, `y = [1]` with `l1_frac = 1`, the very first solve already
returns the all-zero vector (second conjunct), so the claimed
saturation rule would stop the path after two penalties; instead the
driver, which has no such rule, crashes on the first penalty while
assigning the solver's `None` dual gap into the float `dual_gaps` array
and returns no path at all (first conjunct). -/
theorem l1l2_regularization_no_saturation :
    l1l2_regularization sqZero specNorm1 [[1]] [1] 1 [4, 3, 2, 1] 10 (1 / 10000)
        = .error "TypeError: float() argument must be a string or a number"
    ∧ fista_l1l2 sqZero specNorm1 [0] 8 0 [[1]] [1] 10 (1 / 10000) false
        = some (.fourTuple [0] none (1 / 10000) 1) := by
  constructor <;> with_unfolding_all rfl

/-- C10 counterexample: a nondegenerate input (`sigma = 2`, well above
machine epsilon) on which `fista_l1l2` does not return a 4-tuple: with
`max_iter = 0` its final `return` statement reads the never-bound loop
variable `n_iter` and raises `NameError`. -/
theorem fista_four_tuple_fails_at_zero_iter :
    ¬ _sigma specNorm1 [[1]] 1 < machEps
    ∧ fista_l1l2 sqZero specNorm1 [0] 2 1 [[1]] [1] 0 (1 / 10000) false = none := by
  constructor
  · with_unfolding_all decide
  · with_unfolding_all rfl

/-- C10 (amended): `fista_l1l2` returns the 2-tuple `(beta, 0)` exactly
on degenerate (`sigma` below machine epsilon) inputs; on every other
input with `max_iter ≥ 1` it returns a 4-tuple (with `max_iter = 0` the
return statement raises `NameError` instead); consequently, whenever the
first processed penalty of `l1l2_regularization` is degenerate, the
four-way unpacking of the 2-tuple fails with `ValueError` instead of
completing as a graceful no-op. -/
theorem fista_tuple_arity (sq : ℚ → ℚ) (norm2 : Mat → ℚ)
    (beta : List ℚ) (tau mu : ℚ) (X : Mat) (y : List ℚ) (maxIter : ℕ)
    (tol : ℚ) (adaptive : Bool) (l1Frac : ℚ) (alphas : List ℚ)
    (a0 : ℚ) (rest : List ℚ) :
    (_sigma norm2 X mu < machEps →
      fista_l1l2 sq norm2 beta tau mu X y maxIter tol adaptive
        = some (.twoTuple beta 0))
    ∧ (¬ _sigma norm2 X mu < machEps → 1 ≤ maxIter →
        ∃ b n, fista_l1l2 sq norm2 beta tau mu X y maxIter tol adaptive
          = some (.fourTuple b none tol n))
    ∧ (sortDesc alphas = a0 :: rest →
        _sigma norm2 X (a0 * (1 - l1Frac)) < machEps →
        l1l2_regularization sq norm2 X y l1Frac alphas maxIter tol
          = .error "ValueError: need more than 2 values to unpack") := by
  refine ⟨fun h => by simp [fista_l1l2, h], fun h hm => ?_, fun hsort hdeg => ?_⟩
  · refine ⟨(fistaLoop sq X y adaptive mu tau tol
        (fistaInit beta tau mu (_sigma norm2 X mu) y.length) maxIter).1.beta,
      (fistaLoop sq X y adaptive mu tau tol
        (fistaInit beta tau mu (_sigma norm2 X mu) y.length) maxIter).2, ?_⟩
    simp only [fista_l1l2]
    rw [if_neg h, if_neg (by omega : ¬ maxIter = 0)]
  · have hf : fista_l1l2 sq norm2 (zerosVec (numCols X))
        (a0 * l1Frac * 2) (a0 * (1 - l1Frac)) X y maxIter tol false
        = some (.twoTuple (zerosVec (numCols X)) 0) := by
      simp [fista_l1l2, hdeg]
    simp only [l1l2_regularization, hsort, pathLoop, hf]
    rfl

/-- Witness: the three branches of the tuple-arity dichotomy at concrete
inputs — degenerate zero design (2-tuple), nondegenerate 1×1 design
(4-tuple), and a degenerate path-driver call failing at the unpack. -/
theorem fista_tuple_arity_witness :
    (fista_l1l2 sqZero specNorm1 [3] 1 0 [[0]] [1] 5 (1 / 100) false
        = some (.twoTuple [3] 0))
    ∧ (∃ b n, fista_l1l2 sqZero specNorm1 [0] 2 1 [[1]] [1] 5 (1 / 100) false
        = some (.fourTuple b none (1 / 100) n))
    ∧ (l1l2_regularization sqZero specNorm1 [[0]] [1] 1 [2, 1] 5 (1 / 100)
        = .error "ValueError: need more than 2 values to unpack") :=
  ⟨(fista_tuple_arity sqZero specNorm1 [3] 1 0 [[0]] [1] 5 (1 / 100) false 1 [2, 1]
      2 [1]).1 (by with_unfolding_all decide),
   (fista_tuple_arity sqZero specNorm1 [0] 2 1 [[1]] [1] 5 (1 / 100) false 1 [2, 1]
      2 [1]).2.1 (by with_unfolding_all decide) (by omega),
   (fista_tuple_arity sqZero specNorm1 [0] 2 1 [[0]] [1] 5 (1 / 100) false 1 [2, 1]
      2 [1]).2.2 (by with_unfolding_all rfl) (by with_unfolding_all decide)⟩

end PathDriver

/-! ## The model-selection core (`_core.py`)

`_core.py` imports `elastic_net_regpath`, `elastic_net` and
`ridge_regression` from an `algorithms` module that is not part of the
source tree; `ridge_regression` is moreover an external collaborator per
the spec.  The embedding therefore takes them as function parameters,
and supplies spec-modelled candidates for the two missing repository
functions below. -/

/-- `data[idxs, :]`: the listed rows of a matrix. -/
def rowsOf (m : Mat) (idxs : List ℕ) : Mat := idxs.map (fun i => m.getD i [])

/-- `selected = (b.flat != 0)`: boolean support mask of a vector. -/
def maskOf (b : List ℚ) : List Bool := b.map (fun x => decide (x ≠ 0))

/-- `data[:, selected]`: keep the columns flagged by the mask. -/
def selectCols (m : Mat) (selected : List Bool) : Mat :=
  m.map (fun row => (row.zip selected).filterMap
    (fun p => if p.2 then some p.1 else none))

/-- Apply an optional normalizer pair (`if not normalizer is None`). -/
def applyNorm (f : Option (Mat → Mat → Mat × Mat)) (a b : Mat) : Mat × Mat :=
  match f with
  | none => (a, b)
  | some g => g a b

/-- A coefficient vector that is entirely zero. -/
def allZero (v : List ℚ) : Bool := v.all (fun x => decide (x = 0))

/-- Modelled from the spec: the penalty loop of `elastic_net_regpath`
(spec §4.2 step 5), whose implementation lives in the `algorithms`
module missing from src/.  It processes the sparsity grid from strongest
to weakest penalty, warm-starting each solve (`solve X y mu tau warm`)
from the previous solution, and once a solved coefficient vector is
entirely zero for two consecutive penalty values it stops processing the
remaining range, the two zero vectors included as processed entries. -/
def regpathAux (solve : Mat → Mat → ℚ → ℚ → List ℚ → List ℚ)
    (X y : Mat) (mu : ℚ) : List ℚ → Bool → List ℚ → List (List ℚ)
  | _, _, [] => []
  | warm, prevZero, tau :: rest =>
    let b := solve X y mu tau warm
    if allZero b && prevZero then [b]
    else b :: regpathAux solve X y mu b (allZero b) rest

/-- Modelled from the spec: `elastic_net_regpath` (spec §4.2), the
multi-penalty PathSolver driver missing from src/ — the penalty loop
started from the all-zero warm start with no zero solution seen yet. -/
def elastic_net_regpath (solve : Mat → Mat → ℚ → ℚ → List ℚ → List ℚ)
    (X y : Mat) (mu : ℚ) (tauRange : List ℚ) : List (List ℚ) :=
  regpathAux solve X y mu (zerosVec (numCols X)) false tauRange

/-- Modelled from the spec: `elastic_net` (spec §4.4, a "single-point
path"), the single-penalty solver missing from src/ — one FISTA solve
(the solver of §4.2, present in src/ as `fista_l1l2`) from the all-zero
start, returning the final coefficient vector. -/
def elastic_net (sq : ℚ → ℚ) (norm2 : Mat → ℚ) (kmax : ℕ) (tol : ℚ)
    (X y : Mat) (mu tau : ℚ) : List ℚ :=
  match fista_l1l2 sq norm2 (zerosVec (numCols X)) tau mu X
      (y.map (fun r => r.headD 0)) kmax tol false with
  | some (.fourTuple b _ _ _) => b
  | some (.twoTuple b _) => b
  | none => zerosVec (numCols X)

/-- Entry `(i, j)` of a row-major matrix (`m[i, j]`). -/
def getEntry (m : Mat) (i j : ℕ) : ℚ := (m.getD i []).getD j 0

/-- `m.min()`: minimum over all entries (numpy raises on a zero-size
array; this total version returns `0` there and the embedding of
`minimal_model` routes that case to the error branch instead). -/
def minEntry (m : Mat) : ℚ :=
  match m.flatten with
  | [] => 0
  | x :: xs => xs.foldl min x

/-- Positions with value `mn` in one row, scanning left to right from
column `j` of row `i`. -/
def minPosRowAux (mn : ℚ) (i : ℕ) : ℕ → List ℚ → List (ℕ × ℕ)
  | _, [] => []
  | j, x :: xs =>
    if x = mn then (i, j) :: minPosRowAux mn i (j + 1) xs
    else minPosRowAux mn i (j + 1) xs

/-- Row-major scan for value `mn`, rows numbered from `i`. -/
def minPositionsAux (mn : ℚ) : ℕ → List (List ℚ) → List (ℕ × ℕ)
  | _, [] => []
  | i, row :: rest => minPosRowAux mn i 0 row ++ minPositionsAux mn (i + 1) rest

/-- `np.where(m == m.min())` as a row-major list of index pairs; the
Python `tau_opt_idx[0], lambda_opt_idx[0]` selection is this list's
head. -/
def minPositions (m : Mat) : List (ℕ × ℕ) := minPositionsAux (minEntry m) 0 m

/-- Elementwise matrix sum. -/
def matAdd (a b : Mat) : Mat :=
  List.zipWith (fun r s => List.zipWith (· + ·) r s) a b

/-- Scalar multiple of a matrix. -/
def smulMat (c : ℚ) (m : Mat) : Mat := m.map (fun row => row.map (fun x => c * x))

/-- `np.asarray(ms).mean(axis=0)`: elementwise mean of equally shaped
matrices. -/
def meanMats : List Mat → Mat
  | [] => []
  | h :: t => smulMat (1 / ((t.length + 1 : ℕ) : ℚ)) (t.foldl matAdd h)

/-- Environment of one `minimal_model` call: the three imported
functions, the optional normalizers, and the data arguments
(`_core.py` lines 70–73). -/
structure MMEnv where
  regpath : Mat → Mat → ℚ → List ℚ → List (List ℚ)
  ridge : Mat → Mat → ℚ → List ℚ
  errf : Mat → List ℚ → ℚ
  dataNorm : Option (Mat → Mat → Mat × Mat)
  labNorm : Option (Mat → Mat → Mat × Mat)
  data : Mat
  labels : Mat
  mu : ℚ
  tauRange : List ℚ
  lambdaRange : List ℚ

/-- Per-fold views: `data[train_idxs,:], data[test_idxs,:]` and the label
slices, each normalized when a normalizer is configured
(`_core.py` lines 81–88).  Order: train data, test data, train labels,
test labels. -/
def mmFoldData (env : MMEnv) (split : List ℕ × List ℕ) : Mat × Mat × Mat × Mat :=
  let d := applyNorm env.dataNorm (rowsOf env.data split.1) (rowsOf env.data split.2)
  let l := applyNorm env.labNorm (rowsOf env.labels split.1) (rowsOf env.labels split.2)
  (d.1, d.2, l.1, l.2)

/-- One row of the per-fold error matrix (`_core.py` lines 100–109): for
a cascade vector `b`, the selected-column ridge refit at each `lambda`,
evaluated by the error function on the given evaluation slice. -/
def mmErrRow (ridge : Mat → Mat → ℚ → List ℚ) (errf : Mat → List ℚ → ℚ)
    (dataTr labelsTr dataEv labelsEv : Mat) (lambdaRange : List ℚ)
    (b : List ℚ) : List ℚ :=
  lambdaRange.map (fun lam =>
    let selected := maskOf b
    let beta := ridge (selectCols dataTr selected) labelsTr lam
    errf labelsEv (matVec (selectCols dataEv selected) beta))

/-- The sparsity cascade of one fold over the first `m` grid entries
(`beta_casc = elastic_net_regpath(data_tr, labels_tr, mu, tau_range[:max_tau_num])`). -/
def mmFoldCasc (env : MMEnv) (m : ℕ) (split : List ℕ × List ℕ) : List (List ℚ) :=
  let f := mmFoldData env split
  env.regpath f.1 f.2.2.1 env.mu (env.tauRange.take m)

/-- The per-fold test-error matrix `_err_ts` (lines 95–106). -/
def mmFoldTs (env : MMEnv) (m : ℕ) (split : List ℕ × List ℕ) : Mat :=
  let f := mmFoldData env split
  (mmFoldCasc env m split).map
    (mmErrRow env.ridge env.errf f.1 f.2.2.1 f.2.1 f.2.2.2 env.lambdaRange)

/-- The per-fold train-error matrix `_err_tr` (lines 96–109). -/
def mmFoldTr (env : MMEnv) (m : ℕ) (split : List ℕ × List ℕ) : Mat :=
  let f := mmFoldData env split
  (mmFoldCasc env m split).map
    (mmErrRow env.ridge env.errf f.1 f.2.2.1 f.1 f.2.2.1 env.lambdaRange)

/-- One iteration of the fold loop (lines 80–112), threading
`max_tau_num` and appending the two per-fold error matrices. -/
def mmFoldStep (env : MMEnv) (st : ℕ × List Mat × List Mat)
    (split : List ℕ × List ℕ) : ℕ × List Mat × List Mat :=
  let casc := mmFoldCasc env st.1 split
  let mNew := if casc.length < st.1 then casc.length else st.1
  (mNew, st.2.1 ++ [mmFoldTs env st.1 split], st.2.2 ++ [mmFoldTr env st.1 split])

/-- The complete fold loop, started from
`max_tau_num = len(tau_range)` and empty error lists (lines 76–112). -/
def mmRun (env : MMEnv) (splits : List (List ℕ × List ℕ)) :
    ℕ × List Mat × List Mat :=
  splits.foldl (mmFoldStep env) (env.tauRange.length, [], [])

/-- The averaged test `ErrorSurface` (line 115): every per-fold matrix
cut to the final `max_tau_num` rows, then the elementwise mean. -/
def mmSurfaceTs (env : MMEnv) (splits : List (List ℕ × List ℕ)) : Mat :=
  meanMats ((mmRun env splits).2.1.map (fun a => a.take (mmRun env splits).1))

/-- The averaged train error surface (line 116). -/
def mmSurfaceTr (env : MMEnv) (splits : List (List ℕ × List ℕ)) : Mat :=
  meanMats ((mmRun env splits).2.2.map (fun a => a.take (mmRun env splits).1))

/-- Output of `minimal_model` (the `returns_kcv_errors` flag only
selects whether the two surfaces are included in the returned tuple). -/
structure MMOut where
  tauOpt : ℚ
  lambdaOpt : ℚ
  errTs : Mat
  errTr : Mat
  deriving Repr, DecidableEq

/-- `minimal_model` (`_core.py` lines 70–125): fold loop, truncation and
averaging, then `np.where(err_ts == err_ts.min())` with the `[0]`
selection of both index arrays — the head of the row-major list of
minimising positions.  On an empty surface numpy's reduction (or the
`[0]` indexing) raises; this is the error branch. -/
def minimal_model (env : MMEnv) (splits : List (List ℕ × List ℕ)) :
    Except String MMOut :=
  let sTs := mmSurfaceTs env splits
  match minPositions sTs with
  | [] => .error "ValueError: zero-size array to reduction operation minimum"
  | p :: _ =>
    .ok ⟨env.tauRange.getD p.1 0, env.lambdaRange.getD p.2 0, sTs,
      mmSurfaceTr env splits⟩

/-- Output of `nested_lists`: the model cascade plus the optional pair
of train/test error lists (present iff an error function was given). -/
structure NLOut where
  betaList : List (List ℚ)
  selectedList : List (List Bool)
  errLists : Option (List ℚ × List ℚ)
  deriving Repr, DecidableEq

/-- Body of the `for mu in mu_range` loop of `nested_lists`
(`_core.py` lines 144–148): single-penalty elastic-net solve, support
mask, then ridge refit of the selected columns; returns the stored
coefficient vector (the refit) and the mask. -/
def nlBeta (enet : Mat → Mat → ℚ → ℚ → List ℚ) (ridge : Mat → Mat → ℚ → List ℚ)
    (data labels : Mat) (tau lam mu : ℚ) : List ℚ × List Bool :=
  let beta0 := enet data labels mu tau
  let selected := maskOf beta0
  (ridge (selectCols data selected) labels lam, selected)

/-- `nested_lists` (`_core.py` lines 127–163): normalize the single
train/test split once, then build the cascade lists over `mu_range`;
the train/test error lists are produced exactly when an error function
is supplied. -/
def nested_lists (enet : Mat → Mat → ℚ → ℚ → List ℚ)
    (ridge : Mat → Mat → ℚ → List ℚ) (errf : Option (Mat → List ℚ → ℚ))
    (dataNorm labNorm : Option (Mat → Mat → Mat × Mat))
    (data labels testData testLabels : Mat) (tau lam : ℚ)
    (muRange : List ℚ) : NLOut :=
  let d := applyNorm dataNorm data testData
  let l := applyNorm labNorm labels testLabels
  let pairs := muRange.map (fun mu => nlBeta enet ridge d.1 l.1 tau lam mu)
  let betaList := pairs.map (fun p => p.1)
  let selectedList := pairs.map (fun p => p.2)
  match errf with
  | none => ⟨betaList, selectedList, none⟩
  | some ef =>
    let errTr := muRange.map (fun mu =>
      let p := nlBeta enet ridge d.1 l.1 tau lam mu
      ef l.1 (matVec (selectCols d.1 p.2) p.1))
    let errTs := muRange.map (fun mu =>
      let p := nlBeta enet ridge d.1 l.1 tau lam mu
      ef l.2 (matVec (selectCols d.2 p.2) p.1))
    ⟨betaList, selectedList, some (errTr, errTs)⟩

theorem getD_map {α β : Type} (f : α → β) (l : List α) (i : ℕ)
    (hi : i < l.length) (d : β) (d0 : α) :
    (l.map f).getD i d = f (l.getD i d0) := by
  rw [List.getD_eq_getElem _ _ (by simpa using hi), List.getElem_map,
    List.getD_eq_getElem _ _ hi]

section NestedLists

/-- C6: `nested_lists` returns exactly `len(mu_range)` coefficient
vectors and masks, returns error lists of the same length if and only if
an error function was supplied, and the entries are aligned by index
with `mu_range` in its order (entry `i` is the solve/mask/refit pipeline
applied to `mu_range[i]`). -/
theorem nested_lists_lengths (enet : Mat → Mat → ℚ → ℚ → List ℚ)
    (ridge : Mat → Mat → ℚ → List ℚ) (errf : Option (Mat → List ℚ → ℚ))
    (dataNorm labNorm : Option (Mat → Mat → Mat × Mat))
    (data labels testData testLabels : Mat) (tau lam : ℚ)
    (muRange : List ℚ) :
    let out := nested_lists enet ridge errf dataNorm labNorm data labels
      testData testLabels tau lam muRange
    out.betaList.length = muRange.length
    ∧ out.selectedList.length = muRange.length
    ∧ (out.errLists.isSome ↔ errf.isSome)
    ∧ (∀ tr ts, out.errLists = some (tr, ts) →
        tr.length = muRange.length ∧ ts.length = muRange.length)
    ∧ (∀ i, i < muRange.length →
        out.betaList.getD i []
          = (nlBeta enet ridge (applyNorm dataNorm data testData).1
              (applyNorm labNorm labels testLabels).1 tau lam
              (muRange.getD i 0)).1
        ∧ out.selectedList.getD i []
          = (nlBeta enet ridge (applyNorm dataNorm data testData).1
              (applyNorm labNorm labels testLabels).1 tau lam
              (muRange.getD i 0)).2) := by
  cases errf with
  | none =>
    refine ⟨by simp [nested_lists], by simp [nested_lists],
      by simp [nested_lists], ?_, ?_⟩
    · intro tr ts h
      simp [nested_lists] at h
    · intro i hi
      constructor
      · show ((muRange.map _).map _).getD i [] = _
        rw [List.map_map, getD_map _ _ _ hi _ 0]
        rfl
      · show ((muRange.map _).map _).getD i [] = _
        rw [List.map_map, getD_map _ _ _ hi _ 0]
        rfl
  | some ef =>
    refine ⟨by simp [nested_lists], by simp [nested_lists],
      by simp [nested_lists], ?_, ?_⟩
    · intro tr ts h
      simp only [nested_lists] at h
      obtain ⟨h1, h2⟩ := Prod.mk.injEq .. ▸ Option.some.injEq .. ▸ h
      constructor
      · rw [← h1]; simp
      · rw [← h2]; simp
    · intro i hi
      constructor
      · show ((muRange.map _).map _).getD i [] = _
        rw [List.map_map, getD_map _ _ _ hi _ 0]
        rfl
      · show ((muRange.map _).map _).getD i [] = _
        rw [List.map_map, getD_map _ _ _ hi _ 0]
        rfl

/-- Witness: `mu_range = [1/10, 1/2, 1]` yields exactly 3 coefficient
vectors, and entry 0 is the pipeline at `mu_range[0]`. -/
theorem nested_lists_lengths_witness :
    (nested_lists (fun _ _ _ _ => [1, 0])
        (fun m _ _ => List.replicate (numCols m) 1)
        (some (fun _ _ => 0)) none none [[1, 2]] [[1]] [[3, 4]] [[1]] 1 1
        [1 / 10, 1 / 2, 1]).betaList.length = 3
    ∧ ((nested_lists (fun _ _ _ _ => [1, 0])
        (fun m _ _ => List.replicate (numCols m) 1)
        (some (fun _ _ => 0)) none none [[1, 2]] [[1]] [[3, 4]] [[1]] 1 1
        [1 / 10, 1 / 2, 1]).betaList.getD 0 []
          = (nlBeta (fun _ _ _ _ => [1, 0])
              (fun m _ _ => List.replicate (numCols m) 1)
              (applyNorm none [[1, 2]] [[3, 4]]).1
              (applyNorm none [[1]] [[1]]).1 1 1
              (([1 / 10, 1 / 2, 1] : List ℚ).getD 0 0)).1) :=
  ⟨(nested_lists_lengths (fun _ _ _ _ => [1, 0])
      (fun m _ _ => List.replicate (numCols m) 1) (some (fun _ _ => 0))
      none none [[1, 2]] [[1]] [[3, 4]] [[1]] 1 1 [1 / 10, 1 / 2, 1]).1,
   ((nested_lists_lengths (fun _ _ _ _ => [1, 0])
      (fun m _ _ => List.replicate (numCols m) 1) (some (fun _ _ => 0))
      none none [[1, 2]] [[1]] [[3, 4]] [[1]] 1 1
      [1 / 10, 1 / 2, 1]).2.2.2.2 0 (by norm_num)).1⟩

end NestedLists

section MaskInvariant

/-- C8 counterexample: with the spec-modelled single-penalty elastic net
on the design `[[1, 0]]` (solution `[1/2, 0]`, one selected feature out
of two) and a ridge refit returning one coefficient per selected column,
the stored mask has length 2 but the stored coefficient vector has
length 1 — the mask does not match the stored vector. -/
theorem nested_lists_mask_length_mismatch :
    ¬ ((nested_lists (elastic_net sqZero specNorm1 5 (1 / 10000))
          (fun m _ _ => List.replicate (numCols m) 1) none none none
          [[1, 0]] [[1]] [[1, 0]] [[1]] 1 1 [0]).selectedList.getD 0 []).length
      = ((nested_lists (elastic_net sqZero specNorm1 5 (1 / 10000))
          (fun m _ _ => List.replicate (numCols m) 1) none none none
          [[1, 0]] [[1]] [[1, 0]] [[1]] 1 1 [0]).betaList.getD 0 []).length := by
  with_unfolding_all decide

/-- C8 (amended): each mask in the cascade is derived from the
single-penalty elastic-net vector before the ridge refit — it has that
vector's length (the full feature count) and is true exactly where that
pre-refit vector is nonzero — while the stored coefficient vector is the
ridge refit over the selected columns, not the vector the mask came
from. -/
theorem nested_lists_mask_from_enet (enet : Mat → Mat → ℚ → ℚ → List ℚ)
    (ridge : Mat → Mat → ℚ → List ℚ) (errf : Option (Mat → List ℚ → ℚ))
    (dataNorm labNorm : Option (Mat → Mat → Mat × Mat))
    (data labels testData testLabels : Mat) (tau lam : ℚ)
    (muRange : List ℚ) (i : ℕ) (hi : i < muRange.length) :
    let d := (applyNorm dataNorm data testData).1
    let l := (applyNorm labNorm labels testLabels).1
    let out := nested_lists enet ridge errf dataNorm labNorm data labels
      testData testLabels tau lam muRange
    let enetVec := enet d l (muRange.getD i 0) tau
    out.selectedList.getD i [] = maskOf enetVec
    ∧ (out.selectedList.getD i []).length = enetVec.length
    ∧ (∀ k, k < enetVec.length →
        ((out.selectedList.getD i []).getD k false = true
          ↔ enetVec.getD k 0 ≠ 0))
    ∧ out.betaList.getD i [] = ridge (selectCols d (maskOf enetVec)) l lam := by
  intro d l out enetVec
  have hsel : out.selectedList.getD i [] = maskOf enetVec := by
    cases errf with
    | none =>
      show ((muRange.map _).map _).getD i [] = _
      rw [List.map_map, getD_map _ _ _ hi _ 0]
      rfl
    | some ef =>
      show ((muRange.map _).map _).getD i [] = _
      rw [List.map_map, getD_map _ _ _ hi _ 0]
      rfl
  have hbeta : out.betaList.getD i [] = ridge (selectCols d (maskOf enetVec)) l lam := by
    cases errf with
    | none =>
      show ((muRange.map _).map _).getD i [] = _
      rw [List.map_map, getD_map _ _ _ hi _ 0]
      rfl
    | some ef =>
      show ((muRange.map _).map _).getD i [] = _
      rw [List.map_map, getD_map _ _ _ hi _ 0]
      rfl
  refine ⟨hsel, by rw [hsel]; simp [maskOf], ?_, hbeta⟩
  intro k hk
  rw [hsel]
  unfold maskOf
  rw [getD_map _ _ _ hk _ 0]
  simp

/-- Witness: the amended mask invariant at a concrete input with one
zero and one nonzero elastic-net coefficient. -/
theorem nested_lists_mask_from_enet_witness :
    (nested_lists (elastic_net sqZero specNorm1 5 (1 / 10000))
        (fun m _ _ => List.replicate (numCols m) 1) none none none
        [[1, 0]] [[1]] [[1, 0]] [[1]] 1 1 [0]).selectedList.getD 0 []
      = maskOf (elastic_net sqZero specNorm1 5 (1 / 10000)
          (applyNorm none [[1, 0]] [[1, 0]]).1 (applyNorm none [[1]] [[1]]).1
          (([0] : List ℚ).getD 0 0) 1) :=
  (nested_lists_mask_from_enet (elastic_net sqZero specNorm1 5 (1 / 10000))
    (fun m _ _ => List.replicate (numCols m) 1) none none none
    [[1, 0]] [[1]] [[1, 0]] [[1]] 1 1 [0] 0 (by norm_num)).1

end MaskInvariant

section GridValidation

theorem matAdd_nil (b : Mat) : matAdd [] b = [] := rfl

theorem foldl_matAdd_nil : ∀ t : List Mat, t.foldl matAdd [] = []
  | [] => rfl
  | b :: t => by rw [List.foldl_cons, matAdd_nil, foldl_matAdd_nil t]

theorem meanMats_nil_rows : ∀ ms : List Mat, (∀ a ∈ ms, a = ([] : Mat)) →
    meanMats ms = []
  | [], _ => rfl
  | h :: t, hmem => by
    have hh : h = [] := hmem h (List.mem_cons_self h t)
    show smulMat (1 / ((t.length + 1 : ℕ) : ℚ)) (t.foldl matAdd h) = []
    rw [hh, foldl_matAdd_nil t]
    rfl

theorem mmRun_fst_of_zero (env : MMEnv) :
    ∀ (splits : List (List ℕ × List ℕ)) (st : ℕ × List Mat × List Mat),
      st.1 = 0 → (splits.foldl (mmFoldStep env) st).1 = 0
  | [], st, h => h
  | split :: rest, st, h => by
    rw [List.foldl_cons]
    refine mmRun_fst_of_zero env rest _ ?_
    show (if (mmFoldCasc env st.1 split).length < st.1
        then (mmFoldCasc env st.1 split).length else st.1) = 0
    rw [h]
    simp

/-- C9 counterexample: `nested_lists` called with the empty penalty grid
does not fail at entry (or at all) — it completes normally and returns
empty cascade lists. -/
theorem nested_lists_empty_grid_completes :
    nested_lists (fun _ _ _ _ => []) (fun _ _ _ => []) none none none
        [[1]] [[1]] [[1]] [[1]] 1 1 []
      = ⟨[], [], none⟩ := by
  with_unfolding_all rfl

/-- C9 (amended): neither `minimal_model` nor `nested_lists` validates
its penalty grids at entry.  `nested_lists` on an empty strength grid
completes normally with empty result lists; `minimal_model` on an empty
sparsity grid runs the entire fold loop and fails only afterwards, when
numpy's reduction takes the minimum of the resulting zero-size error
surface; and a non-positive sparsity grid (here `tau_range = [-1]`, with
the spec-modelled path solver over the FISTA solver from src/) is
processed to a normal result without any error. -/
theorem grid_validation_absent :
    (∀ (enet : Mat → Mat → ℚ → ℚ → List ℚ) (ridge : Mat → Mat → ℚ → List ℚ)
       (errf : Option (Mat → List ℚ → ℚ))
       (dataNorm labNorm : Option (Mat → Mat → Mat × Mat))
       (data labels testData testLabels : Mat) (tau lam : ℚ),
        nested_lists enet ridge errf dataNorm labNorm data labels testData
            testLabels tau lam []
          = ⟨[], [], errf.map (fun _ => ([], []))⟩)
    ∧ (∀ (env : MMEnv) (splits : List (List ℕ × List ℕ)),
        env.tauRange = [] →
        minimal_model env splits
          = .error "ValueError: zero-size array to reduction operation minimum")
    ∧ minimal_model
        ⟨elastic_net_regpath (fun X y mu tau warm =>
            match fista_l1l2 sqZero specNorm1 warm tau mu X
                (y.map (fun r => r.headD 0)) 5 0 false with
            | some (.fourTuple b _ _ _) => b
            | some (.twoTuple b _) => b
            | none => warm),
          (fun m _ _ => List.replicate (numCols m) 1), (fun _ _ => 0),
          none, none, [[1], [1]], [[1], [1]], 0, [-1], [1]⟩ [([0], [1])]
        = .ok ⟨-1, 1, [[0]], [[0]]⟩ := by
  refine ⟨?_, ?_, by with_unfolding_all rfl⟩
  · intro enet ridge errf dataNorm labNorm data labels testData testLabels tau lam
    cases errf with
    | none => rfl
    | some ef => rfl
  · intro env splits htau
    have h0 : (mmRun env splits).1 = 0 := by
      unfold mmRun
      exact mmRun_fst_of_zero env splits _ (by simp [htau])
    have hsurf : mmSurfaceTs env splits = [] := by
      unfold mmSurfaceTs
      apply meanMats_nil_rows
      intro a ha
      rw [h0] at ha
      obtain ⟨b, _, rfl⟩ := List.mem_map.mp ha
      rfl
    simp only [minimal_model, hsurf]
    rfl

/-- Witness: the no-validation behaviour at concrete inputs — an empty
strength grid returning empty lists, and an empty sparsity grid driving
`minimal_model` into the late reduction error. -/
theorem grid_validation_absent_witness :
    nested_lists (fun _ _ _ _ => [1]) (fun _ _ _ => [1]) none none none
        [[2]] [[1]] [[2]] [[1]] 1 1 []
      = ⟨[], [], none⟩
    ∧ minimal_model
        ⟨(fun _ _ _ _ => [[1]]), (fun _ _ _ => [1]), (fun _ _ => 0),
          none, none, [[2]], [[1]], 0, [], [1]⟩ [([0], [0])]
        = .error "ValueError: zero-size array to reduction operation minimum" :=
  ⟨grid_validation_absent.1 (fun _ _ _ _ => [1]) (fun _ _ _ => [1]) none
      none none [[2]] [[1]] [[2]] [[1]] 1 1,
   grid_validation_absent.2.1
      ⟨(fun _ _ _ _ => [[1]]), (fun _ _ _ => [1]), (fun _ _ => 0),
        none, none, [[2]], [[1]], 0, [], [1]⟩ [([0], [0])] rfl⟩

end GridValidation

section ArgMin

theorem foldl_min_le_init {α : Type} [LinearOrder α] :
    ∀ (l : List α) (a : α), l.foldl min a ≤ a
  | [], a => le_refl a
  | y :: ys, a => le_trans (foldl_min_le_init ys (min a y)) (min_le_left a y)

theorem foldl_min_le_mem {α : Type} [LinearOrder α] :
    ∀ (l : List α) (a x : α), x ∈ l → l.foldl min a ≤ x
  | y :: ys, a, x, h => by
    rcases List.mem_cons.mp h with h | h
    · subst h
      exact le_trans (foldl_min_le_init ys (min a x)) (min_le_right a x)
    · exact foldl_min_le_mem ys (min a y) x h

theorem mem_minPosRowAux (mn : ℚ) (i : ℕ) :
    ∀ (xs : List ℚ) (j : ℕ) (q : ℕ × ℕ),
      q ∈ minPosRowAux mn i j xs
        ↔ q.1 = i ∧ ∃ k, k < xs.length ∧ q.2 = j + k ∧ xs.getD k 0 = mn
  | [], j, q => by simp [minPosRowAux]
  | x :: xs, j, q => by
    unfold minPosRowAux
    by_cases hx : x = mn
    · rw [if_pos hx]
      constructor
      · intro hq
        rcases List.mem_cons.mp hq with h | h
        · subst h
          exact ⟨rfl, 0, by simp, by simp, hx⟩
        · obtain ⟨h1, k, hk, hjk, hget⟩ := (mem_minPosRowAux mn i xs (j + 1) q).mp h
          exact ⟨h1, k + 1, by simp only [List.length_cons]; omega, by omega, by simpa using hget⟩
      · rintro ⟨h1, k, hk, hjk, hget⟩
        match k with
        | 0 =>
          have hq : q = (i, j) := Prod.ext h1 (by omega)
          rw [hq]
          exact List.mem_cons_self _ _
        | k + 1 =>
          refine List.mem_cons_of_mem _ ((mem_minPosRowAux mn i xs (j + 1) q).mpr
            ⟨h1, k, by simp only [List.length_cons] at hk; omega, by omega,
              by simpa using hget⟩)
    · rw [if_neg hx]
      constructor
      · intro hq
        obtain ⟨h1, k, hk, hjk, hget⟩ := (mem_minPosRowAux mn i xs (j + 1) q).mp hq
        exact ⟨h1, k + 1, by simp only [List.length_cons]; omega, by omega, by simpa using hget⟩
      · rintro ⟨h1, k, hk, hjk, hget⟩
        match k with
        | 0 =>
          rw [List.getD_cons_zero] at hget
          exact absurd hget hx
        | k + 1 =>
          exact (mem_minPosRowAux mn i xs (j + 1) q).mpr
            ⟨h1, k, by simp only [List.length_cons] at hk; omega, by omega,
              by simpa using hget⟩

theorem minPosRowAux_head_le (mn : ℚ) (i : ℕ) :
    ∀ (xs : List ℚ) (j : ℕ) (p : ℕ × ℕ) (rest : List (ℕ × ℕ)),
      minPosRowAux mn i j xs = p :: rest →
      ∀ q ∈ minPosRowAux mn i j xs, p.2 ≤ q.2
  | [], j, p, rest, heq => by simp [minPosRowAux] at heq
  | x :: xs, j, p, rest, heq => by
    intro q hq
    unfold minPosRowAux at heq hq
    by_cases hx : x = mn
    · rw [if_pos hx] at heq hq
      have hp : p = (i, j) := (List.cons.injEq .. ▸ heq).1.symm
      rcases List.mem_cons.mp hq with h | h
      · rw [hp, h]
      · obtain ⟨_, k, _, hjk, _⟩ := (mem_minPosRowAux mn i xs (j + 1) q).mp h
        rw [hp]
        omega
    · rw [if_neg hx] at heq hq
      exact minPosRowAux_head_le mn i xs (j + 1) p rest heq q hq

theorem mem_minPositionsAux (mn : ℚ) :
    ∀ (rows : List (List ℚ)) (i : ℕ) (q : ℕ × ℕ),
      q ∈ minPositionsAux mn i rows
        ↔ ∃ a, a < rows.length ∧ q.1 = i + a
            ∧ q.2 < (rows.getD a []).length ∧ (rows.getD a []).getD q.2 0 = mn
  | [], i, q => by simp [minPositionsAux]
  | row :: rest, i, q => by
    unfold minPositionsAux
    rw [List.mem_append]
    constructor
    · intro hq
      rcases hq with h | h
      · obtain ⟨h1, k, hk, hjk, hget⟩ := (mem_minPosRowAux mn i row 0 q).mp h
        refine ⟨0, by simp, by omega, ?_, ?_⟩
        · rw [List.getD_cons_zero]; omega
        · rw [List.getD_cons_zero]
          have : q.2 = k := by omega
          rw [this]; exact hget
      · obtain ⟨a, ha, h1, h2, h3⟩ := (mem_minPositionsAux mn rest (i + 1) q).mp h
        exact ⟨a + 1, by simp only [List.length_cons]; omega, by omega, by simpa using h2, by simpa using h3⟩
    · rintro ⟨a, ha, h1, h2, h3⟩
      match a with
      | 0 =>
        left
        refine (mem_minPosRowAux mn i row 0 q).mpr ⟨by omega, q.2, ?_, by omega, ?_⟩
        · simpa using h2
        · simpa using h3
      | a + 1 =>
        right
        exact (mem_minPositionsAux mn rest (i + 1) q).mpr
          ⟨a, by simp only [List.length_cons] at ha; omega, by omega,
            by simpa using h2, by simpa using h3⟩

theorem minPositionsAux_head_lex (mn : ℚ) :
    ∀ (rows : List (List ℚ)) (i : ℕ) (p : ℕ × ℕ) (rest2 : List (ℕ × ℕ)),
      minPositionsAux mn i rows = p :: rest2 →
      ∀ q ∈ minPositionsAux mn i rows, p.1 < q.1 ∨ (p.1 = q.1 ∧ p.2 ≤ q.2)
  | [], i, p, rest2, heq => by simp [minPositionsAux] at heq
  | row :: rest, i, p, rest2, heq => by
    intro q hq
    unfold minPositionsAux at heq hq
    cases hblock : minPosRowAux mn i 0 row with
    | nil =>
      rw [hblock, List.nil_append] at heq hq
      exact minPositionsAux_head_lex mn rest (i + 1) p rest2 heq q hq
    | cons b bs =>
      rw [hblock, List.cons_append] at heq hq
      have hp : p = b := (List.cons.injEq .. ▸ heq).1.symm
      have hb1 : b.1 = i :=
        ((mem_minPosRowAux mn i row 0 b).mp
          (hblock ▸ List.mem_cons_self b bs)).1
      rcases List.mem_cons.mp hq with h | h
      · right
        rw [hp, h]
        exact ⟨rfl, le_refl _⟩
      · rcases List.mem_append.mp h with h | h
        · have hqblock : q ∈ minPosRowAux mn i 0 row := by
            rw [hblock]; exact List.mem_cons_of_mem b h
          have hq1 : q.1 = i := ((mem_minPosRowAux mn i row 0 q).mp hqblock).1
          right
          rw [hp]
          exact ⟨by omega, minPosRowAux_head_le mn i row 0 b bs hblock q hqblock⟩
        · obtain ⟨a, _, hq1, _, _⟩ := (mem_minPositionsAux mn rest (i + 1) q).mp h
          left
          rw [hp]
          omega

/-- Membership in `minPositions` is exactly being a valid position whose
entry attains the matrix minimum. -/
theorem mem_minPositions (m : Mat) (q : ℕ × ℕ) :
    q ∈ minPositions m
      ↔ q.1 < m.length ∧ q.2 < (m.getD q.1 []).length
          ∧ getEntry m q.1 q.2 = minEntry m := by
  unfold minPositions getEntry
  rw [mem_minPositionsAux]
  constructor
  · rintro ⟨a, ha, h1, h2, h3⟩
    have : a = q.1 := by omega
    subst this
    exact ⟨ha, h2, h3⟩
  · rintro ⟨h1, h2, h3⟩
    exact ⟨q.1, h1, by omega, h2, h3⟩

/-- The matrix minimum bounds every entry from below. -/
theorem minEntry_le_getEntry (m : Mat) (i j : ℕ) (hi : i < m.length)
    (hj : j < (m.getD i []).length) :
    minEntry m ≤ getEntry m i j := by
  have hrow : m.getD i [] ∈ m := by
    rw [List.getD_eq_getElem _ _ hi]
    exact List.getElem_mem hi
  have hx : (m.getD i []).getD j 0 ∈ m.getD i [] := by
    rw [List.getD_eq_getElem _ _ hj]
    exact List.getElem_mem hj
  have hmem : getEntry m i j ∈ m.flatten :=
    List.mem_flatten.mpr ⟨m.getD i [], hrow, hx⟩
  unfold minEntry
  cases hfl : m.flatten with
  | nil => rw [hfl] at hmem; cases hmem
  | cons x xs =>
    rw [hfl] at hmem
    rcases List.mem_cons.mp hmem with h | h
    · rw [h]; exact foldl_min_le_init xs x
    · exact foldl_min_le_mem xs x _ h

/-- C4: whenever `minimal_model` succeeds, the selected
`(tau, lambda)` pair sits at a position of the averaged test error
surface whose value equals the surface minimum, is a lower bound of
every entry, and among all positions attaining the minimum the selected
one is first in row-major (sparsity-major) order. -/
theorem minimal_model_argmin (env : MMEnv) (splits : List (List ℕ × List ℕ))
    (out : MMOut) (h : minimal_model env splits = .ok out) :
    ∃ i j,
      out.tauOpt = env.tauRange.getD i 0
      ∧ out.lambdaOpt = env.lambdaRange.getD j 0
      ∧ i < out.errTs.length ∧ j < (out.errTs.getD i []).length
      ∧ getEntry out.errTs i j = minEntry out.errTs
      ∧ (∀ r c, r < out.errTs.length → c < (out.errTs.getD r []).length →
          getEntry out.errTs i j ≤ getEntry out.errTs r c)
      ∧ (∀ r c, r < out.errTs.length → c < (out.errTs.getD r []).length →
          getEntry out.errTs r c = minEntry out.errTs →
          i < r ∨ (i = r ∧ j ≤ c)) := by
  cases hpos : minPositions (mmSurfaceTs env splits) with
  | nil =>
    simp only [minimal_model, hpos] at h
    cases h
  | cons p ps =>
    simp only [minimal_model, hpos] at h
    injection h with h'
    rw [← h']
    have hmem : p ∈ minPositions (mmSurfaceTs env splits) := by
      rw [hpos]
      exact List.mem_cons_self p ps
    obtain ⟨hb1, hb2, hval⟩ :=
      (mem_minPositions (mmSurfaceTs env splits) p).mp hmem
    refine ⟨p.1, p.2, rfl, rfl, hb1, hb2, hval, ?_, ?_⟩
    · intro r c hr hc
      rw [hval]
      exact minEntry_le_getEntry (mmSurfaceTs env splits) r c hr hc
    · intro r c hr hc hmin
      have hq : ((r, c) : ℕ × ℕ) ∈ minPositions (mmSurfaceTs env splits) :=
        (mem_minPositions (mmSurfaceTs env splits) (r, c)).mpr ⟨hr, hc, hmin⟩
      exact minPositionsAux_head_lex (minEntry (mmSurfaceTs env splits))
        (mmSurfaceTs env splits) 0 p ps hpos (r, c) hq

/-- Witness: a concrete successful `minimal_model` run (one fold, 1×1
surface) whose selected pair attains the surface minimum at the
row-major-first position. -/
theorem minimal_model_argmin_witness :
    ∃ i j,
      (MMOut.mk 2 3 [[0]] [[0]]).tauOpt = ([2] : List ℚ).getD i 0
      ∧ (MMOut.mk 2 3 [[0]] [[0]]).lambdaOpt = ([3] : List ℚ).getD j 0
      ∧ i < (MMOut.mk 2 3 [[0]] [[0]]).errTs.length
      ∧ j < ((MMOut.mk 2 3 [[0]] [[0]]).errTs.getD i []).length
      ∧ getEntry (MMOut.mk 2 3 [[0]] [[0]]).errTs i j
          = minEntry (MMOut.mk 2 3 [[0]] [[0]]).errTs
      ∧ (∀ r c, r < (MMOut.mk 2 3 [[0]] [[0]]).errTs.length →
          c < ((MMOut.mk 2 3 [[0]] [[0]]).errTs.getD r []).length →
          getEntry (MMOut.mk 2 3 [[0]] [[0]]).errTs i j
            ≤ getEntry (MMOut.mk 2 3 [[0]] [[0]]).errTs r c)
      ∧ (∀ r c, r < (MMOut.mk 2 3 [[0]] [[0]]).errTs.length →
          c < ((MMOut.mk 2 3 [[0]] [[0]]).errTs.getD r []).length →
          getEntry (MMOut.mk 2 3 [[0]] [[0]]).errTs r c
            = minEntry (MMOut.mk 2 3 [[0]] [[0]]).errTs →
          i < r ∨ (i = r ∧ j ≤ c)) :=
  minimal_model_argmin
    ⟨(fun _ _ _ ts => ts.map (fun _ => [1])),
      (fun m _ _ => List.replicate (numCols m) 1), (fun _ _ => 0),
      none, none, [[1], [1]], [[1], [1]], 0, [2], [3]⟩
    [([0], [1])] (MMOut.mk 2 3 [[0]] [[0]]) (by with_unfolding_all rfl)

end ArgMin

section TruncatedMean

variable (solve : Mat → Mat → ℚ → ℚ → List ℚ → List ℚ) (X y : Mat) (mu : ℚ)

theorem regpathAux_length_le :
    ∀ (taus : List ℚ) (warm : List ℚ) (pz : Bool),
      (regpathAux solve X y mu warm pz taus).length ≤ taus.length
  | [], warm, pz => le_refl 0
  | tau :: rest, warm, pz => by
    unfold regpathAux
    by_cases hstop : (allZero (solve X y mu tau warm) && pz) = true
    · rw [if_pos hstop]
      simp
    · rw [if_neg hstop]
      simpa using regpathAux_length_le rest (solve X y mu tau warm)
        (allZero (solve X y mu tau warm))

/-- Truncating the penalty grid truncates the path: the spec-modelled
path driver on a grid front-segment returns the front-segment of the
path on the full grid (the early-termination decision at each step only
looks at earlier entries). -/
theorem regpathAux_take :
    ∀ (taus : List ℚ) (m : ℕ) (warm : List ℚ) (pz : Bool),
      regpathAux solve X y mu warm pz (taus.take m)
        = (regpathAux solve X y mu warm pz taus).take m
  | [], m, warm, pz => by simp [regpathAux]
  | tau :: rest, 0, warm, pz => by simp [regpathAux]
  | tau :: rest, m + 1, warm, pz => by
    rw [List.take_succ_cons]
    show regpathAux solve X y mu warm pz (tau :: rest.take m) = _
    unfold regpathAux
    by_cases hstop : (allZero (solve X y mu tau warm) && pz) = true
    · rw [if_pos hstop, if_pos hstop]
      simp
    · rw [if_neg hstop, if_neg hstop, List.take_succ_cons,
        regpathAux_take rest m (solve X y mu tau warm)
          (allZero (solve X y mu tau warm))]

/-- Full-grid cascade length of one fold: the length the fold's path
would have when solved over the entire sparsity grid
(`tauRange.take tauRange.length = tauRange`). -/
def mmFoldLen (env : MMEnv) (split : List ℕ × List ℕ) : ℕ :=
  (mmFoldCasc env env.tauRange.length split).length

/-- Full-grid per-fold test-error matrix of one fold. -/
def mmFoldFullTs (env : MMEnv) (split : List ℕ × List ℕ) : Mat :=
  mmFoldTs env env.tauRange.length split

/-- The global minimum cascade length: the minimum over all folds of the
full-grid path lengths (capped by the grid length, which every path
length already respects). -/
def mmCascMin (env : MMEnv) (splits : List (List ℕ × List ℕ)) : ℕ :=
  (splits.map (mmFoldLen env)).foldl min env.tauRange.length

/-- The error matrices the fold loop actually stores: fold `k` is
truncated at the running minimum reached just before it. -/
def mmStored (env : MMEnv) : ℕ → List (List ℕ × List ℕ) → List Mat
  | _, [] => []
  | m, f :: rest =>
    mmFoldTs env m f :: mmStored env (min m (mmFoldLen env f)) rest

theorem casc_take (env : MMEnv) (hreg : env.regpath = elastic_net_regpath solve)
    (m : ℕ) (split : List ℕ × List ℕ) :
    mmFoldCasc env m split
      = (mmFoldCasc env env.tauRange.length split).take m := by
  unfold mmFoldCasc
  rw [hreg]
  unfold elastic_net_regpath
  rw [List.take_length, ← regpathAux_take]

theorem mmFoldTs_take (env : MMEnv)
    (hreg : env.regpath = elastic_net_regpath solve)
    (m : ℕ) (split : List ℕ × List ℕ) :
    mmFoldTs env m split = (mmFoldFullTs env split).take m := by
  unfold mmFoldTs mmFoldFullTs mmFoldTs
  rw [casc_take solve env hreg m split, List.map_take]

theorem mmFoldCasc_length (env : MMEnv)
    (hreg : env.regpath = elastic_net_regpath solve)
    (m : ℕ) (split : List ℕ × List ℕ) :
    (mmFoldCasc env m split).length = min m (mmFoldLen env split) := by
  rw [casc_take solve env hreg m split, List.length_take]
  rfl

theorem mmRun_eq (env : MMEnv)
    (hreg : env.regpath = elastic_net_regpath solve) :
    ∀ (splits : List (List ℕ × List ℕ)) (m : ℕ) (acc1 acc2 : List Mat),
      (splits.foldl (mmFoldStep env) (m, acc1, acc2)).1
          = (splits.map (mmFoldLen env)).foldl min m
      ∧ (splits.foldl (mmFoldStep env) (m, acc1, acc2)).2.1
          = acc1 ++ mmStored env m splits
  | [], m, acc1, acc2 => ⟨rfl, by simp [mmStored]⟩
  | f :: rest, m, acc1, acc2 => by
    have hstep : mmFoldStep env (m, acc1, acc2) f
        = (min m (mmFoldLen env f), acc1 ++ [mmFoldTs env m f],
           acc2 ++ [mmFoldTr env m f]) := by
      simp only [mmFoldStep]
      rw [mmFoldCasc_length solve env hreg m f]
      rcases Nat.lt_or_ge (min m (mmFoldLen env f)) m with h | h
      · rw [if_pos h]
      · rw [if_neg (not_lt.mpr h)]
        have : min m (mmFoldLen env f) = m := by
          have := min_le_left m (mmFoldLen env f)
          omega
        rw [this]
    rw [List.foldl_cons, hstep]
    obtain ⟨ih1, ih2⟩ := mmRun_eq env hreg rest (min m (mmFoldLen env f))
      (acc1 ++ [mmFoldTs env m f]) (acc2 ++ [mmFoldTr env m f])
    refine ⟨by rw [ih1, List.map_cons, List.foldl_cons], ?_⟩
    rw [ih2]
    show acc1 ++ [mmFoldTs env m f] ++ _ = _
    rw [List.append_assoc]
    rfl

theorem mmStored_take (env : MMEnv)
    (hreg : env.regpath = elastic_net_regpath solve) :
    ∀ (splits : List (List ℕ × List ℕ)) (m g : ℕ),
      g ≤ (splits.map (mmFoldLen env)).foldl min m →
      (mmStored env m splits).map (fun a => a.take g)
        = splits.map (fun f => (mmFoldFullTs env f).take g)
  | [], m, g, hg => rfl
  | f :: rest, m, g, hg => by
    have hgm : g ≤ min m (mmFoldLen env f) := by
      refine le_trans hg ?_
      rw [List.map_cons, List.foldl_cons]
      exact foldl_min_le_init _ _
    unfold mmStored
    rw [List.map_cons, List.map_cons]
    congr 1
    · rw [mmFoldTs_take solve env hreg m f, List.take_take]
      congr 1
      omega
    · refine mmStored_take env hreg rest (min m (mmFoldLen env f)) g ?_
      refine le_trans hg ?_
      rw [List.map_cons, List.foldl_cons]

theorem foldl_min_perm {α : Type} [LinearOrder α] :
    ∀ {l1 l2 : List α}, l1.Perm l2 → ∀ a : α, l1.foldl min a = l2.foldl min a := by
  intro l1 l2 h
  induction h with
  | nil => intro a; rfl
  | cons x h ih => intro a; rw [List.foldl_cons, List.foldl_cons, ih]
  | swap x y l =>
    intro a
    rw [List.foldl_cons, List.foldl_cons, List.foldl_cons, List.foldl_cons,
      min_right_comm]
  | trans h1 h2 ih1 ih2 => intro a; rw [ih1, ih2]

/-- C5: with the spec-modelled path driver, the final `max_tau_num` of
`minimal_model` equals the minimum over all folds of the full-grid
cascade lengths, the averaged test `ErrorSurface` equals the elementwise
mean over all folds of the per-fold full-grid test-error matrices each
truncated to that minimum, and the minimum is unaffected by the order in
which the folds are processed. -/
theorem mm_surface_truncated_mean (ridge : Mat → Mat → ℚ → List ℚ)
    (errf : Mat → List ℚ → ℚ)
    (dataNorm labNorm : Option (Mat → Mat → Mat × Mat))
    (data labels : Mat) (tauRange lambdaRange : List ℚ)
    (splits : List (List ℕ × List ℕ)) :
    let env : MMEnv := ⟨elastic_net_regpath solve, ridge, errf, dataNorm,
      labNorm, data, labels, mu, tauRange, lambdaRange⟩
    (mmRun env splits).1 = mmCascMin env splits
    ∧ mmSurfaceTs env splits
        = meanMats (splits.map
            (fun f => (mmFoldFullTs env f).take (mmCascMin env splits)))
    ∧ (∀ splits2, splits.Perm splits2 →
        mmCascMin env splits = mmCascMin env splits2) := by
  intro env
  have hreg : env.regpath = elastic_net_regpath solve := rfl
  have h1 : (mmRun env splits).1 = mmCascMin env splits :=
    (mmRun_eq solve env hreg splits env.tauRange.length [] []).1
  refine ⟨h1, ?_, ?_⟩
  · unfold mmSurfaceTs
    have h2 : (mmRun env splits).2.1 = mmStored env env.tauRange.length splits :=
      (mmRun_eq solve env hreg splits env.tauRange.length [] []).2
    rw [h1, h2, mmStored_take solve env hreg splits env.tauRange.length
      (mmCascMin env splits) (le_refl _)]
  · intro splits2 hperm
    unfold mmCascMin
    exact foldl_min_perm (hperm.map (mmFoldLen env)) env.tauRange.length

/-- Witness: a concrete two-fold run on the grid `[5, 3, 1]` whose
second fold saturates after two penalties (full-grid cascade lengths 3
and 2): the final `max_tau_num` equals the global minimum 2, and the
minimum is invariant under swapping the two folds. -/
theorem mm_surface_truncated_mean_witness :
    (mmRun
        ⟨elastic_net_regpath
            (fun X _ _ tau _ => if (X.headD []).headD 0 = 0 then [0] else [tau]),
          (fun m _ _ => List.replicate (numCols m) 1), (fun _ p => p.sum),
          none, none, [[1], [0]], [[1], [1]], 0, [5, 3, 1], [1]⟩
        [([0], [1]), ([1], [0])]).1
      = mmCascMin
        ⟨elastic_net_regpath
            (fun X _ _ tau _ => if (X.headD []).headD 0 = 0 then [0] else [tau]),
          (fun m _ _ => List.replicate (numCols m) 1), (fun _ p => p.sum),
          none, none, [[1], [0]], [[1], [1]], 0, [5, 3, 1], [1]⟩
        [([0], [1]), ([1], [0])]
    ∧ mmCascMin
        ⟨elastic_net_regpath
            (fun X _ _ tau _ => if (X.headD []).headD 0 = 0 then [0] else [tau]),
          (fun m _ _ => List.replicate (numCols m) 1), (fun _ p => p.sum),
          none, none, [[1], [0]], [[1], [1]], 0, [5, 3, 1], [1]⟩
        [([0], [1]), ([1], [0])]
      = mmCascMin
        ⟨elastic_net_regpath
            (fun X _ _ tau _ => if (X.headD []).headD 0 = 0 then [0] else [tau]),
          (fun m _ _ => List.replicate (numCols m) 1), (fun _ p => p.sum),
          none, none, [[1], [0]], [[1], [1]], 0, [5, 3, 1], [1]⟩
        [([1], [0]), ([0], [1])] :=
  ⟨(mm_surface_truncated_mean
      (fun X _ _ tau _ => if (X.headD []).headD 0 = 0 then [0] else [tau])
      0 (fun m _ _ => List.replicate (numCols m) 1) (fun _ p => p.sum)
      none none [[1], [0]] [[1], [1]] [5, 3, 1] [1]
      [([0], [1]), ([1], [0])]).1,
   (mm_surface_truncated_mean
      (fun X _ _ tau _ => if (X.headD []).headD 0 = 0 then [0] else [tau])
      0 (fun m _ _ => List.replicate (numCols m) 1) (fun _ p => p.sum)
      none none [[1], [0]] [[1], [1]] [5, 3, 1] [1]
      [([0], [1]), ([1], [0])]).2.2 [([1], [0]), ([0], [1])]
      (List.Perm.swap ([1], [0]) ([0], [1]) [])⟩

end TruncatedMean

end L1L2
